import Mathlib

/-!
# Verification of the ZodiacGraph plug-arrangement core

A shallow embedding of the plug-placement algorithm of ZodiacGraph:

* `zodiac::arrangePlugs` (plugarranger.cpp): the greedy zone-assignment
  heuristic working on a `rowCount × columnCount` cost table, modelled here
  with the table as a function `Nat → Nat → K` (the C++ stores it flattened
  as `costTable[columnCount*row + col]`).
* the result-application merge loop of `Node::arrangePlugs` (node.cpp),
  which swaps each connected plug into its assigned zone.
* the zone-direction layout, empty-zone collapse and `angularDistance`
  helper of `Node::arrangePlugs` (node.cpp), over real angles.

Doubles (`qreal`) are modelled by an arbitrary linearly ordered additive
commutative group `K` for the assignment algorithm (only order, `+` and `-`
matter there; `K` can be instantiated at `ℚ` or `ℝ`) and by `ℝ` for the
angular geometry (which involves `π`).  The C++ sentinel `DBL_MAX` used to seed the running minimum
is modelled by `Option`: `none` means "no candidate seen yet", and any cell
compares below it, which is exactly how a finite double compares against
`DBL_MAX`.
-/

variable {K : Type} [LinearOrderedAddCommGroup K]

/-- One comparison of the running-minimum scans of plugarranger.cpp
(`if(cell < minCost){ minCost = cell; ... }`): `none` plays the role of the
`DBL_MAX` seed, below which every finite cell compares. -/
def minStep {α : Type} (f : α → K) (acc : Option (K × α)) (x : α) : Option (K × α) :=
  match acc with
  | none => some (f x, x)
  | some (m, b) => if f x < m then some (f x, x) else some (m, b)

/-- The running-minimum scan the C++ performs with a `DBL_MAX` seed:
fold over the candidates, keep the value and candidate of the first
strictly smallest cell. -/
def firstMinBy {α : Type} (f : α → K) (L : List α) : Option (K × α) :=
  L.foldl (minStep f) none

/-- Row-major traversal of `[0, nR) × [0, nC)`: the iteration order of the
nested `for(row) for(col)` loops over the delta table in plugarranger.cpp. -/
def pairList (nR nC : Nat) : List (Nat × Nat) :=
  (List.range nR).flatMap (fun r => (List.range nC).map (fun c => (r, c)))

/-- The per-row initial guess of `zodiac::arrangePlugs`: the column of the
first strictly smallest cost in the row (`minCost` starts at `DBL_MAX`;
`guess` is a zero-initialized `QVector<int>`, hence the `0` default when
there are no columns). -/
def argminCol (f : Nat → K) (n : Nat) : Nat :=
  match firstMinBy f (List.range n) with
  | none => 0
  | some (_, b) => b

/-- First phase of `zodiac::arrangePlugs`: for each row pick the column
with the smallest cost in that row. -/
def initialGuess (cost : Nat → Nat → K) (rowCount columnCount : Nat) : List Nat :=
  (List.range rowCount).map (fun row => argminCol (fun col => cost row col) columnCount)

/-- `getProblemRows` of plugarranger.cpp: the indices of the rows whose
chosen column is shared with at least one other row
(`guess.count(guess[guessIndex]) > 1`). -/
def getProblemRows (guess : List Nat) : List Nat :=
  (List.range guess.length).filter (fun i => 1 < guess.count (guess.getD i 0))

/-- The empty-column scan of `zodiac::arrangePlugs`: all columns not chosen
by any row (`if(!guess.contains(col))`), in increasing order. -/
def emptyColumnsOf (guess : List Nat) (columnCount : Nat) : List Nat :=
  (List.range columnCount).filter (fun col => !(guess.contains col))

/-- The minimum search over the delta table: scan problem rows (outer) and
empty columns (inner), keeping the first strictly smallest delta.  Returns
the minimum together with the *indices* (`inRow`, `inCol`) into the
problem-row and empty-column arrays; `none` models the C++ case where the
search space is empty and `inRow`/`inCol` stay uninitialized. -/
def selectBest (d : Nat → Nat → K) (nR nC : Nat) : Option (K × (Nat × Nat)) :=
  firstMinBy (fun p => d p.1 p.2) (pairList nR nC)

/-- The delta cost of moving problem row `rIdx` onto empty column `cIdx`
(`costTable[row][col] - costTable[row][guess[row]]` in plugarranger.cpp). -/
def deltaCost (cost : Nat → Nat → K) (guess problemRows empties : List Nat)
    (rIdx cIdx : Nat) : K :=
  cost (problemRows.getD rIdx 0) (empties.getD cIdx 0)
    - cost (problemRows.getD rIdx 0) (guess.getD (problemRows.getD rIdx 0) 0)

/-- The `while(problemRowCount > 0)` conflict-repair loop of
`zodiac::arrangePlugs`.  Each iteration moves the problem row with the
globally smallest delta onto the chosen empty column and removes that
column from the empty-column array; the problem rows are recomputed on
every iteration.  `fuel` bounds the number of iterations (each iteration
consumes one empty column, so `empties.length` fuel is enough for any run
that the C++ completes); the result also carries the remaining empty
columns and the number of iterations executed. -/
def repairLoop (cost : Nat → Nat → K) :
    Nat → List Nat → List Nat → List Nat × List Nat × Nat
  | 0, guess, empties => (guess, empties, 0)
  | fuel + 1, guess, empties =>
    match getProblemRows guess with
    | [] => (guess, empties, 0)
    | _ :: _ =>
      match selectBest (deltaCost cost guess (getProblemRows guess) empties)
          (getProblemRows guess).length empties.length with
      | none => (guess, empties, 0)
      | some (_, inRow, inCol) =>
        let res := repairLoop cost fuel
          (guess.set ((getProblemRows guess).getD inRow 0) (empties.getD inCol 0))
          (empties.eraseIdx inCol)
        (res.1, res.2.1, res.2.2 + 1)

/-- One step of the final swap pass of `zodiac::arrangePlugs`: if swapping
the columns of rows `l` and `r` lowers the sum of their two costs
(`swapSum < currentSum`), swap them. -/
def swapStep (cost : Nat → Nat → K) (g : List Nat) (l r : Nat) : List Nat :=
  if cost l (g.getD r 0) + cost r (g.getD l 0)
      < cost l (g.getD l 0) + cost r (g.getD r 0) then
    (g.set l (g.getD r 0)).set r (g.getD l 0)
  else
    g

/-- Traversal order of the swap pass: all pairs `(leftIndex, rightIndex)`
with `leftIndex < rightIndex < n`, left index outer. -/
def pairsUpper (n : Nat) : List (Nat × Nat) :=
  (List.range n).flatMap (fun l => (List.range' (l + 1) (n - (l + 1))).map (fun r => (l, r)))

/-- The single swap-optimization pass of `zodiac::arrangePlugs`. -/
def swapPass (cost : Nat → Nat → K) (n : Nat) (g : List Nat) : List Nat :=
  (pairsUpper n).foldl (fun g p => swapStep cost g p.1 p.2) g

/-- `zodiac::arrangePlugs` of plugarranger.cpp: initial per-row argmin
guess, conflict-repair loop, then the swap pass. -/
def arrangePlugs (cost : Nat → Nat → K) (rowCount columnCount : Nat) : List Nat :=
  let guess := initialGuess cost rowCount columnCount
  let empties := emptyColumnsOf guess columnCount
  swapPass cost rowCount (repairLoop cost empties.length guess empties).1

/-- The state of `zodiac::arrangePlugs` after the conflict-repair loop and
before the swap pass: the repaired guess, the leftover empty columns, and
the number of repair iterations executed. -/
def repairPhase (cost : Nat → Nat → K) (rowCount columnCount : Nat) :
    List Nat × List Nat × Nat :=
  repairLoop cost
    (emptyColumnsOf (initialGuess cost rowCount columnCount) columnCount).length
    (initialGuess cost rowCount columnCount)
    (emptyColumnsOf (initialGuess cost rowCount columnCount) columnCount)

/-- Total assigned cost of a guess: the sum over all rows of the cost of
the row at its assigned column. -/
def totalCost (cost : Nat → Nat → K) (g : List Nat) : K :=
  ∑ i ∈ Finset.range g.length, cost i (g.getD i 0)

/-- One step of the result-application merge loop of `Node::arrangePlugs`
(node.cpp): put zone `zoneIndex` at position `plugIndex` of `optimalPath`,
displacing the previous holder of that zone (if any — the C++ tests
`occupiedIndex != -1` after `indexOf`) into the plug's old slot. -/
def mergeStep (path : List Nat) (plugIndex zoneIndex : Nat) : List Nat :=
  let tZoneIndex := path.getD plugIndex 0
  let occupiedIndex := path.indexOf zoneIndex
  let path1 := path.set plugIndex zoneIndex
  if zoneIndex ∈ path then path1.set occupiedIndex tZoneIndex else path1

/-- The merge loop of `Node::arrangePlugs`: fold `mergeStep` over the
(plug index, assigned zone) pairs produced by the assigner. -/
def mergeLoop (pairs : List (Nat × Nat)) (path : List Nat) : List Nat :=
  pairs.foldl (fun p pr => mergeStep p pr.1 pr.2) path

open Real in
/-- The `angularDistance` helper of node.cpp:
`result = |alpha - beta|; if (result > π) return 2π - result else result`. -/
noncomputable def angularDistance (alpha beta : ℝ) : ℝ :=
  if |alpha - beta| > π then 2 * π - |alpha - beta| else |alpha - beta|

/-- The zone-center layout loop of `Node::arrangePlugs`: starting from
`currentAngle`, emit `n` centers advancing by `step = gapAngle + zoneSpan`
after each one. -/
noncomputable def loopAngles (step : ℝ) : ℝ → Nat → List ℝ
  | _, 0 => []
  | current, n + 1 => current :: loopAngles step (current + step) n

open Real in
/-- The zone span of `Node::arrangePlugs`:
`(π - 2·halfDeadAngle - (halfZoneCount+1)·gapAngle) / halfZoneCount`. -/
noncomputable def zoneSpan (H : Nat) (D G : ℝ) : ℝ :=
  (π - 2 * D - ((H : ℝ) + 1) * G) / (H : ℝ)

open Real in
/-- The initial zone directions of `Node::arrangePlugs` for `N` plugs,
dead-zone half-angle `D` and gap angle `G`: `evenZoneCount = N + N % 2`
zones, the upper half laid out from `D + G + span/2`, the lower half from
`-π + D + G + span/2`, both stepping by `G + span`. -/
noncomputable def zoneDirections (N : Nat) (D G : ℝ) : List ℝ :=
  let H := (N + N % 2) / 2
  let span := zoneSpan H D G
  loopAngles (G + span) (D + G + span / 2) H
    ++ loopAngles (G + span) (-π + D + G + span / 2) H

/-- The re-layout loop of the empty-zone collapse in `Node::arrangePlugs`:
walk `n` zone indices starting at `index`, skipping `emptyIdx`
(`if(index==emptyZoneIndex) continue;`) and writing the advancing
`currentAngle` into every other visited slot. -/
noncomputable def relayoutLoop (emptyIdx : Nat) (step : ℝ) :
    List ℝ → Nat → ℝ → Nat → List ℝ
  | zs, _, _, 0 => zs
  | zs, index, current, n + 1 =>
    if index = emptyIdx then
      relayoutLoop emptyIdx step zs (index + 1) current n
    else
      relayoutLoop emptyIdx step (zs.set index current) (index + 1) (current + step) n

open Real in
/-- The zone directions after the empty-zone collapse of
`Node::arrangePlugs`: the half containing `emptyIdx` is re-laid-out with
span `(π - 2·D - halfZoneCount·G) / (halfZoneCount - 1)`, skipping the
collapsed index; the other half is untouched. -/
noncomputable def collapsedZoneDirections (N : Nat) (D G : ℝ) (emptyIdx : Nat) : List ℝ :=
  let H := (N + N % 2) / 2
  let offset : ℝ := if emptyIdx < H then 0 else -π
  let startIndex := if emptyIdx < H then 0 else H
  let newSpan := (π - 2 * D - (H : ℝ) * G) / ((H : ℝ) - 1)
  relayoutLoop emptyIdx (G + newSpan)
    (zoneDirections N D G) startIndex (offset + D + G + newSpan / 2) H

/-! ## Properties of the running-minimum scan -/

/-- Folding `minStep` from a seeded accumulator: the result is the seed or
the first strictly smaller candidate, and it bounds every candidate. -/
theorem foldl_minStep_spec {α : Type} (f : α → K) :
    ∀ (L : List α) (m₀ : K) (a₀ : α),
      ∃ m a, L.foldl (minStep f) (some (m₀, a₀)) = some (m, a) ∧
        m ≤ m₀ ∧ (∀ b ∈ L, m ≤ f b) ∧
        ((m = m₀ ∧ a = a₀) ∨
          (m = f a ∧ m < m₀ ∧ ∃ l₁ l₂, L = l₁ ++ a :: l₂ ∧ ∀ b ∈ l₁, m < f b)) := by
  intro L
  induction L with
  | nil =>
    intro m₀ a₀
    exact ⟨m₀, a₀, rfl, le_refl _, by simp, Or.inl ⟨rfl, rfl⟩⟩
  | cons x L ih =>
    intro m₀ a₀
    by_cases h : f x < m₀
    · obtain ⟨m, a, heq, hle, hmin, hdisj⟩ := ih (f x) x
      refine ⟨m, a, ?_, le_of_lt (lt_of_le_of_lt hle h), ?_, ?_⟩
      · simpa [List.foldl_cons, minStep, h] using heq
      · intro b hb
        rcases List.mem_cons.mp hb with hb | hb
        · exact hb ▸ hle
        · exact hmin b hb
      · rcases hdisj with ⟨hm, ha⟩ | ⟨hm, hlt, l₁, l₂, hL, hstrict⟩
        · refine Or.inr ⟨by rw [hm, ha], hm ▸ h, [], L, by simp [ha], by simp⟩
        · refine Or.inr ⟨hm, lt_trans hlt h, x :: l₁, l₂, by simp [hL], ?_⟩
          intro b hb
          rcases List.mem_cons.mp hb with hb | hb
          · exact hb ▸ hlt
          · exact hstrict b hb
    · obtain ⟨m, a, heq, hle, hmin, hdisj⟩ := ih m₀ a₀
      refine ⟨m, a, ?_, hle, ?_, ?_⟩
      · simpa [List.foldl_cons, minStep, h] using heq
      · intro b hb
        rcases List.mem_cons.mp hb with hb | hb
        · exact hb ▸ le_trans hle (not_lt.mp h)
        · exact hmin b hb
      · rcases hdisj with ⟨hm, ha⟩ | ⟨hm, hlt, l₁, l₂, hL, hstrict⟩
        · exact Or.inl ⟨hm, ha⟩
        · refine Or.inr ⟨hm, hlt, x :: l₁, l₂, by simp [hL], ?_⟩
          intro b hb
          rcases List.mem_cons.mp hb with hb | hb
          · exact hb ▸ lt_of_lt_of_le hlt (not_lt.mp h)
          · exact hstrict b hb

/-- `firstMinBy` on a nonempty list returns the value and position of the
first strict minimum: it bounds every element, cuts the list at the winner,
and is strictly below everything before the winner. -/
theorem firstMinBy_spec {α : Type} (f : α → K) (L : List α) (hL : L ≠ []) :
    ∃ m a l₁ l₂, firstMinBy f L = some (m, a) ∧ m = f a ∧ L = l₁ ++ a :: l₂ ∧
      (∀ b ∈ L, m ≤ f b) ∧ (∀ b ∈ l₁, m < f b) := by
  obtain ⟨x, L', rfl⟩ := List.exists_cons_of_ne_nil hL
  obtain ⟨m, a, heq, hle, hmin, hdisj⟩ := foldl_minStep_spec f L' (f x) x
  have hfold : firstMinBy f (x :: L') = some (m, a) := by
    simpa [firstMinBy, List.foldl_cons, minStep] using heq
  rcases hdisj with ⟨hm, ha⟩ | ⟨hm, hlt, l₁, l₂, hL', hstrict⟩
  · refine ⟨m, a, [], L', hfold, by rw [hm, ha], by simp [ha], ?_, by simp⟩
    intro b hb
    rcases List.mem_cons.mp hb with hb | hb
    · exact hb ▸ hle
    · exact hmin b hb
  · refine ⟨m, a, x :: l₁, l₂, hfold, hm, by simp [hL'], ?_, ?_⟩
    · intro b hb
      rcases List.mem_cons.mp hb with hb | hb
      · exact hb ▸ hle
      · exact hmin b hb
    · intro b hb
      rcases List.mem_cons.mp hb with hb | hb
      · exact hb ▸ hlt
      · exact hstrict b hb

/-- `firstMinBy` returns `none` exactly on the empty candidate list (the
C++ leaves its result variables uninitialized exactly in this case). -/
theorem firstMinBy_eq_none_iff {α : Type} (f : α → K) (L : List α) :
    firstMinBy f L = none ↔ L = [] := by
  constructor
  · intro h
    by_contra hne
    obtain ⟨m, a, _, _, heq, -⟩ := firstMinBy_spec f L hne
    rw [h] at heq
    exact Option.noConfusion heq
  · rintro rfl
    rfl

/-! ## Traversal orders -/

/-- Strict row-major (lexicographic) order on (row, column) pairs: the
order in which the nested loops of plugarranger.cpp visit the table. -/
def lexLt (p q : Nat × Nat) : Prop :=
  p.1 < q.1 ∨ (p.1 = q.1 ∧ p.2 < q.2)

theorem mem_pairList {p : Nat × Nat} {nR nC : Nat} :
    p ∈ pairList nR nC ↔ p.1 < nR ∧ p.2 < nC := by
  rcases p with ⟨r, c⟩
  simp only [pairList, List.mem_flatMap, List.mem_map, List.mem_range]
  constructor
  · rintro ⟨r', hr', c', hc', heq⟩
    cases heq
    exact ⟨hr', hc'⟩
  · rintro ⟨hr, hc⟩
    exact ⟨r, hr, c, hc, rfl⟩

theorem pairList_pairwise (nR nC : Nat) : (pairList nR nC).Pairwise lexLt := by
  induction nR with
  | zero => simp [pairList]
  | succ n ih =>
    have hsplit : pairList (n + 1) nC
        = pairList n nC ++ (List.range nC).map (fun c => (n, c)) := by
      simp [pairList, List.range_succ]
    rw [hsplit]
    refine List.pairwise_append.mpr ⟨ih, ?_, ?_⟩
    · rw [List.pairwise_map]
      refine List.Pairwise.imp ?_ (List.pairwise_lt_range nC)
      intro a b hab
      exact Or.inr ⟨rfl, hab⟩
    · intro p hp q hq
      obtain ⟨hr, -⟩ := mem_pairList.mp hp
      obtain ⟨c, -, rfl⟩ := List.mem_map.mp hq
      exact Or.inl hr

theorem pairList_ne_nil {nR nC : Nat} (hR : 0 < nR) (hC : 0 < nC) :
    pairList nR nC ≠ [] :=
  List.ne_nil_of_mem
    (show ((0, 0) : Nat × Nat) ∈ pairList nR nC from mem_pairList.mpr ⟨hR, hC⟩)

/-! ## The initial guess -/

theorem argminCol_lt (f : Nat → K) {n : Nat} (hn : 0 < n) : argminCol f n < n := by
  obtain ⟨m, a, l₁, l₂, heq, -, hcut, -, -⟩ :=
    firstMinBy_spec f (List.range n) (by simpa using Nat.pos_iff_ne_zero.mp hn)
  have ha : a ∈ List.range n := hcut ▸ List.mem_append_right l₁ (List.mem_cons_self a l₂)
  have : argminCol f n = a := by simp [argminCol, heq]
  rw [this]
  exact List.mem_range.mp ha

theorem argminCol_min (f : Nat → K) {n j : Nat} (hj : j < n) :
    f (argminCol f n) ≤ f j := by
  obtain ⟨m, a, l₁, l₂, heq, hm, -, hmin, -⟩ :=
    firstMinBy_spec f (List.range n)
      (by simpa using Nat.pos_iff_ne_zero.mp (lt_of_le_of_lt (Nat.zero_le j) hj))
  have : argminCol f n = a := by simp [argminCol, heq]
  rw [this, ← hm]
  exact hmin j (List.mem_range.mpr hj)

theorem argminCol_first (f : Nat → K) {n j : Nat} (hj : j < argminCol f n) (hjn : j < n) :
    f (argminCol f n) < f j := by
  obtain ⟨m, a, l₁, l₂, heq, hm, hcut, -, hstrict⟩ :=
    firstMinBy_spec f (List.range n)
      (by simpa using Nat.pos_iff_ne_zero.mp (lt_of_le_of_lt (Nat.zero_le j) hjn))
  have ha : argminCol f n = a := by simp [argminCol, heq]
  rw [ha] at hj
  have hjmem : j ∈ List.range n := List.mem_range.mpr hjn
  rw [hcut] at hjmem
  have hpw : (List.range n).Pairwise (· < ·) := List.pairwise_lt_range n
  rw [hcut, List.pairwise_append] at hpw
  rcases List.mem_append.mp hjmem with hj₁ | hj₂
  · rw [ha, ← hm]
    exact hstrict j hj₁
  · rcases List.mem_cons.mp hj₂ with rfl | hj₂
    · exact absurd hj (lt_irrefl j)
    · have : a < j := (List.pairwise_cons.mp hpw.2.1).1 j hj₂
      exact absurd (lt_trans hj this) (lt_irrefl j)

theorem initialGuess_length (cost : Nat → Nat → K) (rowCount columnCount : Nat) :
    (initialGuess cost rowCount columnCount).length = rowCount := by
  simp [initialGuess]

theorem initialGuess_mem_lt (cost : Nat → Nat → K) {rowCount columnCount : Nat}
    (hc : 0 < columnCount) :
    ∀ v ∈ initialGuess cost rowCount columnCount, v < columnCount := by
  intro v hv
  obtain ⟨row, -, rfl⟩ := List.mem_map.mp hv
  exact argminCol_lt _ hc

/-! ## Problem rows and empty columns -/

theorem mem_getProblemRows {g : List Nat} {i : Nat} :
    i ∈ getProblemRows g ↔ i < g.length ∧ 1 < g.count (g.getD i 0) := by
  simp [getProblemRows]

/-- A guess has no problem rows exactly when no column is chosen twice. -/
theorem getProblemRows_eq_nil_iff (g : List Nat) :
    getProblemRows g = [] ↔ g.Nodup := by
  constructor
  · intro h
    rw [List.nodup_iff_count_le_one]
    intro a
    by_cases ha : a ∈ g
    · obtain ⟨i, hi, rfl⟩ := List.getElem_of_mem ha
      have hnot : i ∉ getProblemRows g := by
        rw [h]
        exact List.not_mem_nil i
      rw [mem_getProblemRows] at hnot
      push_neg at hnot
      have h2 := hnot hi
      rwa [List.getD_eq_getElem g 0 hi] at h2
    · rw [List.count_eq_zero_of_not_mem ha]
      exact Nat.zero_le 1
  · intro h
    rw [List.eq_nil_iff_forall_not_mem]
    intro i
    rw [mem_getProblemRows]
    rintro ⟨hi, hcount⟩
    exact absurd (List.nodup_iff_count_le_one.mp h (g.getD i 0)) (not_le.mpr hcount)

theorem mem_emptyColumnsOf {g : List Nat} {n c : Nat} :
    c ∈ emptyColumnsOf g n ↔ c < n ∧ c ∉ g := by
  simp [emptyColumnsOf]

theorem emptyColumnsOf_nodup (g : List Nat) (n : Nat) : (emptyColumnsOf g n).Nodup :=
  (List.nodup_range n).filter _

/-- Columns split into empty and occupied ones, so the number of empty
columns plus the number of distinct chosen columns covers all columns. -/
theorem emptyColumnsOf_length_add_card (g : List Nat) (n : Nat) :
    n ≤ (emptyColumnsOf g n).length + g.toFinset.card := by
  have hperm := (List.range n).filter_append_perm (fun col => !(g.contains col))
  have hlen : (emptyColumnsOf g n).length
      + ((List.range n).filter (fun col => !(!(g.contains col)))).length = n := by
    have := hperm.length_eq
    rw [List.length_append] at this
    simpa [emptyColumnsOf] using this
  have hocc : ((List.range n).filter (fun col => !(!(g.contains col)))).length
      ≤ g.toFinset.card := by
    set occ := (List.range n).filter (fun col => !(!(g.contains col))) with hocc_def
    have hnodup : occ.Nodup := (List.nodup_range n).filter _
    have hsub : occ.toFinset ⊆ g.toFinset := by
      intro a ha
      rw [List.mem_toFinset] at ha ⊢
      have := List.mem_filter.mp ha
      simpa using this.2
    calc occ.length = occ.toFinset.card := (List.toFinset_card_of_nodup hnodup).symm
      _ ≤ g.toFinset.card := Finset.card_le_card hsub
  omega

/-! ## List swap helpers -/

/-- Pulling the `k`-th element of a list to the front while writing `y` in
its place is a permutation. -/
theorem swap_cons_perm : ∀ (t : List Nat) (k y : Nat), k < t.length →
    List.Perm (t.getD k 0 :: t.set k y) (y :: t) := by
  intro t
  induction t with
  | nil => intro k y hk; simp at hk
  | cons c t ih =>
    intro k y hk
    match k with
    | 0 => simpa using List.Perm.swap y c t
    | k + 1 =>
      have hk' : k < t.length := by simpa using hk
      have h1 : List.Perm (t.getD k 0 :: c :: t.set k y) (c :: t.getD k 0 :: t.set k y) :=
        List.Perm.swap c (t.getD k 0) (t.set k y)
      have h2 : List.Perm (c :: t.getD k 0 :: t.set k y) (c :: y :: t) :=
        (ih k y hk').cons c
      have h3 : List.Perm (c :: y :: t) (y :: c :: t) := List.Perm.swap y c t
      simpa using (h1.trans h2).trans h3

/-- Swapping the entries at two positions (the `temp`-mediated swap of the
C++ code) permutes the list. -/
theorem set_set_perm : ∀ (g : List Nat) (l r : Nat), l < r → r < g.length →
    List.Perm ((g.set l (g.getD r 0)).set r (g.getD l 0)) g := by
  intro g
  induction g with
  | nil => intro l r _ hr; simp at hr
  | cons y g ih =>
    intro l r hlr hr
    match l, r with
    | 0, r + 1 =>
      have hr' : r < g.length := by simpa using hr
      simpa using swap_cons_perm g r y hr'
    | l + 1, r + 1 =>
      have hr' : r < g.length := by simpa using hr
      have hlr' : l < r := Nat.lt_of_succ_lt_succ hlr
      simpa using (ih l r hlr' hr').cons y

/-- `set_set_perm` for an arbitrary pair of distinct valid positions. -/
theorem set_set_perm_ne (g : List Nat) (l r : Nat) (hne : l ≠ r)
    (hl : l < g.length) (hr : r < g.length) :
    List.Perm ((g.set l (g.getD r 0)).set r (g.getD l 0)) g := by
  rcases lt_or_gt_of_ne hne with h | h
  · exact set_set_perm g l r h hr
  · rw [List.set_comm _ _ g hne]
    exact set_set_perm g r l h hl

/-- Writing a fresh value into a duplicate-free list keeps it
duplicate-free. -/
theorem nodup_set_of_not_mem (g : List Nat) (p v : Nat) (hp : p < g.length)
    (hnodup : g.Nodup) (hv : v ∉ g) : (g.set p v).Nodup := by
  have hset : g.set p v = g.take p ++ v :: g.drop (p + 1) := by
    rw [List.set_eq_take_append_cons_drop]
    simp [hp]
  have hg : g = g.take p ++ g[p] :: g.drop (p + 1) := by
    conv_lhs => rw [← List.take_append_drop p g]
    rw [← List.getElem_cons_drop g p hp]
  rw [hset, List.nodup_middle]
  rw [hg, List.nodup_middle] at hnodup
  have htail := (List.nodup_cons.mp hnodup).2
  refine List.nodup_cons.mpr ⟨?_, htail⟩
  intro hvmem
  refine hv ?_
  rw [hg]
  rcases List.mem_append.mp hvmem with h | h
  · exact List.mem_append_left _ h
  · exact List.mem_append_right _ (List.mem_cons_of_mem _ h)

/-- Writing back the value already stored at a position is a no-op. -/
theorem set_getD_self (g : List Nat) (p : Nat) (hp : p < g.length) :
    g.set p (g.getD p 0) = g := by
  refine List.ext_getElem (by simp) ?_
  intro i h1 h2
  rw [List.getElem_set]
  split
  · next h => subst h; exact (List.getD_eq_getElem g 0 hp).symm ▸ rfl
  · rfl

/-! ## The conflict-repair loop -/

theorem repairLoop_zero_eq (cost : Nat → Nat → K) (guess empties : List Nat) :
    repairLoop cost 0 guess empties = (guess, empties, 0) := rfl

theorem repairLoop_succ_eq (cost : Nat → Nat → K) (fuel : Nat) (guess empties : List Nat) :
    repairLoop cost (fuel + 1) guess empties =
      match getProblemRows guess with
      | [] => (guess, empties, 0)
      | _ :: _ =>
        match selectBest (deltaCost cost guess (getProblemRows guess) empties)
            (getProblemRows guess).length empties.length with
        | none => (guess, empties, 0)
        | some (_, inRow, inCol) =>
          let res := repairLoop cost fuel
            (guess.set ((getProblemRows guess).getD inRow 0) (empties.getD inCol 0))
            (empties.eraseIdx inCol)
          (res.1, res.2.1, res.2.2 + 1) := rfl

/-- The delta-table minimum search finds something whenever there is at
least one problem row and at least one empty column. -/
theorem selectBest_isSome (d : Nat → Nat → K) {nR nC : Nat} (hR : 0 < nR) (hC : 0 < nC) :
    ∃ m r c, selectBest d nR nC = some (m, (r, c)) ∧ r < nR ∧ c < nC := by
  obtain ⟨m, a, l₁, l₂, heq, -, hcut, -, -⟩ :=
    firstMinBy_spec (fun p => d p.1 p.2) (pairList nR nC) (pairList_ne_nil hR hC)
  have ha : a ∈ pairList nR nC :=
    hcut ▸ List.mem_append_right l₁ (List.mem_cons_self a l₂)
  obtain ⟨h1, h2⟩ := mem_pairList.mp ha
  exact ⟨m, a.1, a.2, heq, h1, h2⟩

/-- An entry occurring at least twice still occurs outside its position. -/
theorem count_two_mem_rest (g : List Nat) (j : Nat) (hj : j < g.length) (v : Nat)
    (hv : g[j] = v) (hcnt : 1 < g.count v) : v ∈ g.take j ++ g.drop (j + 1) := by
  have hg : g = g.take j ++ v :: g.drop (j + 1) := by
    conv_lhs => rw [← List.take_append_drop j g]
    rw [← List.getElem_cons_drop g j hj, hv]
  rw [hg, List.count_append, List.count_cons] at hcnt
  simp only [beq_self_eq_true, if_true] at hcnt
  rw [← List.count_pos_iff, List.count_append]
  omega

/-- Overwriting a duplicated entry adds the new value to the set of values
without removing the old one. -/
theorem toFinset_set_of_dup (g : List Nat) (row c : Nat) (hrow : row < g.length)
    (hcount : 1 < g.count (g.getD row 0)) :
    (g.set row c).toFinset = insert c g.toFinset := by
  have hg : g = g.take row ++ g[row] :: g.drop (row + 1) := by
    conv_lhs => rw [← List.take_append_drop row g]
    rw [← List.getElem_cons_drop g row hrow]
  have hset : g.set row c = g.take row ++ c :: g.drop (row + 1) := by
    rw [List.set_eq_take_append_cons_drop]
    simp [hrow]
  ext a
  simp only [List.mem_toFinset, Finset.mem_insert]
  constructor
  · intro ha
    rcases List.mem_or_eq_of_mem_set ha with h | h
    · exact Or.inr h
    · exact Or.inl h
  · rintro (rfl | ha)
    · rw [hset]
      exact List.mem_append_right _ (List.mem_cons_self a _)
    · obtain ⟨j, hj, rfl⟩ := List.getElem_of_mem ha
      by_cases hjrow : j = row
      · subst hjrow
        have hcnt : 1 < g.count g[j] := by
          rwa [List.getD_eq_getElem g 0 hj] at hcount
        have hmem : g[j] ∈ g.take j ++ g.drop (j + 1) :=
          count_two_mem_rest g j hj g[j] rfl hcnt
        rw [hset]
        rcases List.mem_append.mp hmem with h | h
        · exact List.mem_append_left _ h
        · exact List.mem_append_right _ (List.mem_cons_of_mem _ h)
      · have hjlen : j < (g.set row c).length := by simpa using hj
        have hval : (g.set row c)[j] = g[j] := by
          rw [List.getElem_set]
          simp [Ne.symm hjrow]
        have hmem2 : (g.set row c)[j] ∈ g.set row c := List.getElem_mem hjlen
        rw [hval] at hmem2
        exact hmem2

/-- The column just removed from the empty-column array no longer occurs in
it (the array holds each empty column once). -/
theorem getD_not_mem_eraseIdx (empties : List Nat) (inCol : Nat)
    (hNodup : empties.Nodup) (hin : inCol < empties.length) :
    empties.getD inCol 0 ∉ empties.eraseIdx inCol := by
  rw [List.getD_eq_getElem empties 0 hin, List.eraseIdx_eq_take_drop_succ]
  have hemp : empties = empties.take inCol ++ empties[inCol] :: empties.drop (inCol + 1) := by
    conv_lhs => rw [← List.take_append_drop inCol empties]
    rw [← List.getElem_cons_drop empties inCol hin]
  rw [hemp, List.nodup_middle, List.nodup_cons] at hNodup
  exact hNodup.1

/-- Master invariant of the conflict-repair loop: given enough fuel, a
guess whose values lie among the columns, and an accurate duplicate-free
empty-column array, the loop ends with a conflict-free guess of unchanged
length, consumes exactly one empty column per iteration, and each
iteration adds exactly one new distinct column to the guess. -/
theorem repairLoop_spec (cost : Nat → Nat → K) (columnCount : Nat) :
    ∀ (fuel : Nat) (guess empties : List Nat),
      empties.length ≤ fuel →
      (∀ v ∈ guess, v < columnCount) →
      empties.Nodup →
      (∀ c ∈ empties, c < columnCount) →
      (∀ c ∈ empties, c ∉ guess) →
      columnCount ≤ empties.length + guess.toFinset.card →
      guess.length ≤ columnCount →
      (repairLoop cost fuel guess empties).1.length = guess.length ∧
      (∀ v ∈ (repairLoop cost fuel guess empties).1, v < columnCount) ∧
      (repairLoop cost fuel guess empties).1.Nodup ∧
      (repairLoop cost fuel guess empties).2.1.length
        + (repairLoop cost fuel guess empties).2.2 = empties.length ∧
      (repairLoop cost fuel guess empties).2.2 + guess.toFinset.card
        = (repairLoop cost fuel guess empties).1.toFinset.card := by
  intro fuel
  induction fuel with
  | zero =>
    intro guess empties hfuel hlt hnodupE hEc hEnotin hcard hlen
    have hempty : empties = [] := List.length_eq_zero.mp (Nat.le_zero.mp hfuel)
    subst hempty
    rw [repairLoop_zero_eq]
    have hnodup : guess.Nodup := by
      by_contra hnd
      have h1 : guess.dedup.length ≤ guess.length := (List.dedup_sublist guess).length_le
      have h2 : guess.toFinset.card = guess.dedup.length := List.card_toFinset guess
      have h3 : guess.dedup.length < guess.length := by
        rcases Nat.lt_or_ge guess.dedup.length guess.length with h | h
        · exact h
        · have : guess.dedup = guess :=
            (List.dedup_sublist guess).eq_of_length (Nat.le_antisymm h1 h)
          exact absurd (this ▸ List.nodup_dedup guess) hnd
      simp only [List.length_nil, Nat.zero_add] at hcard
      omega
    exact ⟨rfl, hlt, hnodup, by simp, by simp⟩
  | succ fuel ih =>
    intro guess empties hfuel hlt hnodupE hEc hEnotin hcard hlen
    rcases hP : getProblemRows guess with - | ⟨p, ps⟩
    · rw [repairLoop_succ_eq, hP]
      exact ⟨rfl, hlt, (getProblemRows_eq_nil_iff guess).mp hP, by simp, by simp⟩
    · -- there is a conflict: the guess has a duplicate, so not all columns
      -- are distinct and at least one empty column remains
      have hnodup_false : ¬guess.Nodup := by
        rw [← getProblemRows_eq_nil_iff, hP]
        simp
      have hcard_lt : guess.toFinset.card < guess.length := by
        have h1 : guess.dedup.length ≤ guess.length := (List.dedup_sublist guess).length_le
        have h2 : guess.toFinset.card = guess.dedup.length := List.card_toFinset guess
        rcases Nat.lt_or_ge guess.dedup.length guess.length with h | h
        · omega
        · have : guess.dedup = guess :=
            (List.dedup_sublist guess).eq_of_length (Nat.le_antisymm h1 h)
          exact absurd (this ▸ List.nodup_dedup guess) hnodup_false
      have hEpos : 0 < empties.length := by omega
      have hPpos : 0 < (getProblemRows guess).length := by rw [hP]; simp
      obtain ⟨m, inRow, inCol, hsel, hinR, hinC⟩ :=
        selectBest_isSome
          (deltaCost cost guess (getProblemRows guess) empties)
          hPpos hEpos
      -- the selected problem row and empty column
      have hrow_mem : (getProblemRows guess).getD inRow 0 ∈ getProblemRows guess := by
        rw [List.getD_eq_getElem _ 0 hinR]
        exact List.getElem_mem hinR
      obtain ⟨hrow_lt, hrow_count⟩ := mem_getProblemRows.mp hrow_mem
      have hc_mem : empties.getD inCol 0 ∈ empties := by
        rw [List.getD_eq_getElem _ 0 hinC]
        exact List.getElem_mem hinC
      have hc_lt : empties.getD inCol 0 < columnCount := hEc _ hc_mem
      have hc_notin : empties.getD inCol 0 ∉ guess := hEnotin _ hc_mem
      -- unfold one iteration
      have hunfold : repairLoop cost (fuel + 1) guess empties =
          ((repairLoop cost fuel
              (guess.set ((getProblemRows guess).getD inRow 0) (empties.getD inCol 0))
              (empties.eraseIdx inCol)).1,
            (repairLoop cost fuel
              (guess.set ((getProblemRows guess).getD inRow 0) (empties.getD inCol 0))
              (empties.eraseIdx inCol)).2.1,
            (repairLoop cost fuel
              (guess.set ((getProblemRows guess).getD inRow 0) (empties.getD inCol 0))
              (empties.eraseIdx inCol)).2.2 + 1) := by
        rw [repairLoop_succ_eq]
        rw [hP] at hsel ⊢
        rw [hsel]
      set guess' := guess.set ((getProblemRows guess).getD inRow 0) (empties.getD inCol 0)
        with hguess'
      set empties' := empties.eraseIdx inCol with hempties'
      -- invariants for the recursive call
      have hlen' : empties'.length = empties.length - 1 := by
        rw [hempties']
        exact List.length_eraseIdx_of_lt hinC
      have hfuel' : empties'.length ≤ fuel := by omega
      have hlt' : ∀ v ∈ guess', v < columnCount := by
        intro v hv
        rcases List.mem_or_eq_of_mem_set hv with h | h
        · exact hlt v h
        · exact h ▸ hc_lt
      have hnodupE' : empties'.Nodup := hnodupE.sublist (List.eraseIdx_sublist empties inCol)
      have hEc' : ∀ c ∈ empties', c < columnCount := fun c hc =>
        hEc c ((List.eraseIdx_sublist empties inCol).mem hc)
      have hcne : empties.getD inCol 0 ∉ empties' :=
        getD_not_mem_eraseIdx empties inCol hnodupE hinC
      have hEnotin' : ∀ c ∈ empties', c ∉ guess' := by
        intro c hc hcg
        rcases List.mem_or_eq_of_mem_set hcg with h | h
        · exact hEnotin c ((List.eraseIdx_sublist empties inCol).mem hc) h
        · exact hcne (h ▸ hc)
      have hfinset' : guess'.toFinset = insert (empties.getD inCol 0) guess.toFinset :=
        toFinset_set_of_dup guess _ _ hrow_lt hrow_count
      have hcard' : guess'.toFinset.card = guess.toFinset.card + 1 := by
        rw [hfinset']
        exact Finset.card_insert_of_not_mem (fun h => hc_notin (List.mem_toFinset.mp h))
      have hcard_inv' : columnCount ≤ empties'.length + guess'.toFinset.card := by omega
      have hlen_g' : guess'.length = guess.length := by
        rw [hguess']
        exact List.length_set guess _ _
      obtain ⟨r1, r2, r3, r4, r5⟩ :=
        ih guess' empties' hfuel' hlt' hnodupE' hEc' hEnotin' hcard_inv' (hlen_g' ▸ hlen)
      rw [hunfold]
      refine ⟨by rw [r1, hlen_g'], r2, r3, by dsimp only; omega, by dsimp only; omega⟩

/-! ## The swap pass -/

theorem getD_set_self (g : List Nat) (p v : Nat) (hp : p < g.length) :
    (g.set p v).getD p 0 = v := by
  rw [List.getD_eq_getElem _ 0 (by simpa using hp)]
  exact List.getElem_set_self _

theorem getD_set_ne (g : List Nat) (p v i : Nat) (h : p ≠ i) :
    (g.set p v).getD i 0 = g.getD i 0 := by
  by_cases hi : i < g.length
  · rw [List.getD_eq_getElem _ 0 (by simpa using hi), List.getD_eq_getElem _ 0 hi]
    exact List.getElem_set_ne h _
  · rw [List.getD_eq_default _ 0 (by simpa using not_lt.mp hi),
      List.getD_eq_default _ 0 (not_lt.mp hi)]

theorem mem_pairsUpper {n : Nat} {p : Nat × Nat} :
    p ∈ pairsUpper n ↔ p.1 < p.2 ∧ p.2 < n := by
  rcases p with ⟨l, r⟩
  simp only [pairsUpper, List.mem_flatMap, List.mem_map, List.mem_range, List.mem_range'_1]
  constructor
  · rintro ⟨l', hl', r', ⟨h1, h2⟩, heq⟩
    cases heq
    omega
  · rintro ⟨h1, h2⟩
    exact ⟨l, by omega, r, by omega, rfl⟩

theorem swapStep_perm (cost : Nat → Nat → K) (g : List Nat) (l r : Nat)
    (hlr : l < r) (hr : r < g.length) : List.Perm (swapStep cost g l r) g := by
  unfold swapStep
  split
  · exact set_set_perm g l r hlr hr
  · exact List.Perm.refl g

theorem swapStep_length (cost : Nat → Nat → K) (g : List Nat) (l r : Nat)
    (hlr : l < r) (hr : r < g.length) : (swapStep cost g l r).length = g.length :=
  (swapStep_perm cost g l r hlr hr).length_eq

/-- Entries at positions other than the two swapped rows are untouched. -/
theorem swapStep_getD_ne (cost : Nat → Nat → K) (g : List Nat) (l r i : Nat)
    (hil : i ≠ l) (hir : i ≠ r) :
    (swapStep cost g l r).getD i 0 = g.getD i 0 := by
  unfold swapStep
  split
  · rw [getD_set_ne _ _ _ _ (Ne.symm hir), getD_set_ne _ _ _ _ (Ne.symm hil)]
  · rfl

/-- After an executed swap the two rows hold each other's old columns. -/
theorem swapStep_getD_swapped (cost : Nat → Nat → K) (g : List Nat) (l r : Nat)
    (hlr : l ≠ r) (hl : l < g.length) (hr : r < g.length)
    (hcond : cost l (g.getD r 0) + cost r (g.getD l 0)
      < cost l (g.getD l 0) + cost r (g.getD r 0)) :
    (swapStep cost g l r).getD l 0 = g.getD r 0 ∧
      (swapStep cost g l r).getD r 0 = g.getD l 0 := by
  unfold swapStep
  rw [if_pos hcond]
  constructor
  · rw [getD_set_ne _ _ _ _ (Ne.symm hlr)]
    exact getD_set_self g l _ hl
  · exact getD_set_self _ r _ (by simpa using hr)

/-- A single swap step never increases the total assigned cost. -/
theorem totalCost_swapStep_le (cost : Nat → Nat → K) (g : List Nat) (l r : Nat)
    (hlr : l < r) (hr : r < g.length) :
    totalCost cost (swapStep cost g l r) ≤ totalCost cost g := by
  have hl : l < g.length := lt_trans hlr hr
  have hne : l ≠ r := Nat.ne_of_lt hlr
  by_cases hcond : cost l (g.getD r 0) + cost r (g.getD l 0)
      < cost l (g.getD l 0) + cost r (g.getD r 0)
  · have hsw : swapStep cost g l r = (g.set l (g.getD r 0)).set r (g.getD l 0) := by
      unfold swapStep
      rw [if_pos hcond]
    have hlen : (swapStep cost g l r).length = g.length :=
      swapStep_length cost g l r hlr hr
    have hfun : (fun i => cost i ((swapStep cost g l r).getD i 0))
        = Function.update (Function.update (fun i => cost i (g.getD i 0))
            l (cost l (g.getD r 0))) r (cost r (g.getD l 0)) := by
      funext i
      by_cases hir : i = r
      · rw [hir, Function.update_same,
          (swapStep_getD_swapped cost g l r hne hl hr hcond).2]
      · rw [Function.update_noteq hir]
        by_cases hil : i = l
        · rw [hil, Function.update_same,
            (swapStep_getD_swapped cost g l r hne hl hr hcond).1]
        · rw [Function.update_noteq hil,
            swapStep_getD_ne cost g l r i hil hir]
    have hrm : r ∈ Finset.range g.length := Finset.mem_range.mpr hr
    have hlm : l ∈ Finset.range g.length \ {r} := by
      rw [Finset.mem_sdiff, Finset.mem_singleton]
      exact ⟨Finset.mem_range.mpr hl, hne⟩
    have hsum_sw : totalCost cost (swapStep cost g l r)
        = cost r (g.getD l 0) + (cost l (g.getD r 0)
          + ∑ i ∈ (Finset.range g.length \ {r}) \ {l}, cost i (g.getD i 0)) := by
      rw [totalCost, hlen, hfun, Finset.sum_update_of_mem hrm]
      congr 1
      rw [Finset.sum_update_of_mem hlm]
    have hsum_g : totalCost cost g
        = cost r (g.getD r 0) + (cost l (g.getD l 0)
          + ∑ i ∈ (Finset.range g.length \ {r}) \ {l}, cost i (g.getD i 0)) := by
      rw [totalCost, ← Finset.add_sum_erase _ _ hrm, Finset.erase_eq]
      congr 1
      rw [← Finset.add_sum_erase _ _ hlm, Finset.erase_eq]
    rw [hsum_sw, hsum_g, ← add_assoc, ← add_assoc]
    have := le_of_lt hcond
    apply add_le_add_right
    calc cost r (g.getD l 0) + cost l (g.getD r 0)
        = cost l (g.getD r 0) + cost r (g.getD l 0) := by rw [add_comm]
      _ ≤ cost l (g.getD l 0) + cost r (g.getD r 0) := this
      _ = cost r (g.getD r 0) + cost l (g.getD l 0) := by rw [add_comm]
  · have : swapStep cost g l r = g := by
      unfold swapStep
      rw [if_neg hcond]
    rw [this]

/-- Folding `swapStep` over in-bound pairs permutes the assignment. -/
theorem foldl_swapStep_perm (cost : Nat → Nat → K) :
    ∀ (L : List (Nat × Nat)) (g : List Nat),
      (∀ p ∈ L, p.1 < p.2 ∧ p.2 < g.length) →
      List.Perm (L.foldl (fun g p => swapStep cost g p.1 p.2) g) g := by
  intro L
  induction L with
  | nil => intro g _; exact List.Perm.refl g
  | cons p L ih =>
    intro g hb
    obtain ⟨h1, h2⟩ := hb p (List.mem_cons_self p L)
    have hstep : List.Perm (swapStep cost g p.1 p.2) g := swapStep_perm cost g p.1 p.2 h1 h2
    have hlen : (swapStep cost g p.1 p.2).length = g.length := hstep.length_eq
    have hb' : ∀ q ∈ L, q.1 < q.2 ∧ q.2 < (swapStep cost g p.1 p.2).length := by
      intro q hq
      rw [hlen]
      exact hb q (List.mem_cons_of_mem p hq)
    exact (ih (swapStep cost g p.1 p.2) hb').trans hstep

/-- Folding `swapStep` over in-bound pairs never increases total cost. -/
theorem foldl_swapStep_totalCost_le (cost : Nat → Nat → K) :
    ∀ (L : List (Nat × Nat)) (g : List Nat),
      (∀ p ∈ L, p.1 < p.2 ∧ p.2 < g.length) →
      totalCost cost (L.foldl (fun g p => swapStep cost g p.1 p.2) g)
        ≤ totalCost cost g := by
  intro L
  induction L with
  | nil => intro g _; exact le_refl _
  | cons p L ih =>
    intro g hb
    obtain ⟨h1, h2⟩ := hb p (List.mem_cons_self p L)
    have hlen : (swapStep cost g p.1 p.2).length = g.length :=
      swapStep_length cost g p.1 p.2 h1 h2
    have hb' : ∀ q ∈ L, q.1 < q.2 ∧ q.2 < (swapStep cost g p.1 p.2).length := by
      intro q hq
      rw [hlen]
      exact hb q (List.mem_cons_of_mem p hq)
    exact le_trans (ih (swapStep cost g p.1 p.2) hb')
      (totalCost_swapStep_le cost g p.1 p.2 h1 h2)

theorem swapPass_perm (cost : Nat → Nat → K) (g : List Nat) :
    List.Perm (swapPass cost g.length g) g := by
  refine foldl_swapStep_perm cost (pairsUpper g.length) g ?_
  intro p hp
  exact mem_pairsUpper.mp hp

theorem swapPass_totalCost_le (cost : Nat → Nat → K) (g : List Nat) :
    totalCost cost (swapPass cost g.length g) ≤ totalCost cost g := by
  refine foldl_swapStep_totalCost_le cost (pairsUpper g.length) g ?_
  intro p hp
  exact mem_pairsUpper.mp hp

/-! ## The result-application merge loop -/

theorem mergeStep_length (path : List Nat) (p z : Nat) :
    (mergeStep path p z).length = path.length := by
  simp only [mergeStep]
  split <;> simp

/-- One merge step keeps the port-to-zone map free of duplicates: either
the assigned zone was unoccupied (a fresh value is written over the plug's
old slot) or its previous holder is displaced into the old slot (a
transposition). -/
theorem mergeStep_nodup (path : List Nat) (p z : Nat) (hp : p < path.length)
    (h : path.Nodup) : (mergeStep path p z).Nodup := by
  by_cases hz : z ∈ path
  · have hocc : path.indexOf z < path.length := List.indexOf_lt_length.mpr hz
    have hzval : path.getD (path.indexOf z) 0 = z := by
      rw [List.getD_eq_getElem _ 0 hocc]
      exact List.getElem_indexOf hocc
    by_cases hop : path.indexOf z = p
    · have heq : mergeStep path p z = path := by
        simp only [mergeStep, if_pos hz]
        rw [hop, List.set_set]
        exact set_getD_self path p hp
      rw [heq]
      exact h
    · have heq : mergeStep path p z
          = (path.set p (path.getD (path.indexOf z) 0)).set
              (path.indexOf z) (path.getD p 0) := by
        simp only [mergeStep, if_pos hz, hzval]
      have hperm : List.Perm (mergeStep path p z) path := by
        rw [heq]
        exact set_set_perm_ne path p (path.indexOf z) (fun hh => hop hh.symm) hp hocc
      exact hperm.nodup_iff.mpr h
  · have heq : mergeStep path p z = path.set p z := by
      simp only [mergeStep, if_neg hz]
    rw [heq]
    exact nodup_set_of_not_mem path p z hp h hz

/-- The merge loop keeps the port-to-zone map duplicate-free and of
unchanged length after every step. -/
theorem mergeLoop_nodup_aux :
    ∀ (pairs : List (Nat × Nat)) (path : List Nat),
      path.Nodup → (∀ pr ∈ pairs, pr.1 < path.length) →
      (mergeLoop pairs path).Nodup ∧ (mergeLoop pairs path).length = path.length := by
  intro pairs
  induction pairs with
  | nil => intro path h _; exact ⟨h, rfl⟩
  | cons pr pairs ih =>
    intro path h hb
    have hp : pr.1 < path.length := hb pr (List.mem_cons_self pr pairs)
    have hstep_nodup : (mergeStep path pr.1 pr.2).Nodup := mergeStep_nodup path pr.1 pr.2 hp h
    have hstep_len : (mergeStep path pr.1 pr.2).length = path.length :=
      mergeStep_length path pr.1 pr.2
    have hb' : ∀ q ∈ pairs, q.1 < (mergeStep path pr.1 pr.2).length := by
      intro q hq
      rw [hstep_len]
      exact hb q (List.mem_cons_of_mem pr hq)
    have hcons : mergeLoop (pr :: pairs) path = mergeLoop pairs (mergeStep path pr.1 pr.2) := rfl
    rw [hcons]
    obtain ⟨h1, h2⟩ := ih (mergeStep path pr.1 pr.2) hstep_nodup hb'
    exact ⟨h1, h2.trans hstep_len⟩

/-! ## Further helpers for the no-conflict and tie-breaking claims -/

theorem initialGuess_getD (cost : Nat → Nat → K) (rowCount columnCount i : Nat)
    (hi : i < rowCount) :
    (initialGuess cost rowCount columnCount).getD i 0
      = argminCol (fun col => cost i col) columnCount := by
  rw [List.getD_eq_getElem _ 0 (by simpa [initialGuess] using hi)]
  simp [initialGuess]

/-- If the guess has no conflicts, the repair loop exits immediately. -/
theorem repairLoop_of_no_problems (cost : Nat → Nat → K) (fuel : Nat)
    (guess empties : List Nat) (hP : getProblemRows guess = []) :
    repairLoop cost fuel guess empties = (guess, empties, 0) := by
  cases fuel with
  | zero => exact repairLoop_zero_eq cost guess empties
  | succ fuel => rw [repairLoop_succ_eq, hP]

theorem foldl_swapStep_id (cost : Nat → Nat → K) (g : List Nat) :
    ∀ L : List (Nat × Nat), (∀ p ∈ L, swapStep cost g p.1 p.2 = g) →
      L.foldl (fun g p => swapStep cost g p.1 p.2) g = g := by
  intro L
  induction L with
  | nil => intro _; rfl
  | cons p L ih =>
    intro h
    have h0 : swapStep cost g p.1 p.2 = g := h p (List.mem_cons_self p L)
    have hfold : (p :: L).foldl (fun g p => swapStep cost g p.1 p.2) g
        = L.foldl (fun g p => swapStep cost g p.1 p.2) (swapStep cost g p.1 p.2) := rfl
    rw [hfold, h0]
    exact ih (fun q hq => h q (List.mem_cons_of_mem p hq))

/-- Bundled facts about the state of the repair loop as entered from
`arrangePlugs`: final guess length, value range, freedom from conflicts,
one empty column consumed per iteration, and an iteration count of at most
`rowCount`. -/
theorem repairLoop_entry_spec (cost : Nat → Nat → K) (rowCount columnCount : Nat)
    (hrc : rowCount ≤ columnCount) :
    (repairLoop cost
        (emptyColumnsOf (initialGuess cost rowCount columnCount) columnCount).length
        (initialGuess cost rowCount columnCount)
        (emptyColumnsOf (initialGuess cost rowCount columnCount) columnCount)).1.length
      = rowCount ∧
    (∀ v ∈ (repairLoop cost
        (emptyColumnsOf (initialGuess cost rowCount columnCount) columnCount).length
        (initialGuess cost rowCount columnCount)
        (emptyColumnsOf (initialGuess cost rowCount columnCount) columnCount)).1,
      v < columnCount) ∧
    (repairLoop cost
        (emptyColumnsOf (initialGuess cost rowCount columnCount) columnCount).length
        (initialGuess cost rowCount columnCount)
        (emptyColumnsOf (initialGuess cost rowCount columnCount) columnCount)).1.Nodup ∧
    (repairLoop cost
        (emptyColumnsOf (initialGuess cost rowCount columnCount) columnCount).length
        (initialGuess cost rowCount columnCount)
        (emptyColumnsOf (initialGuess cost rowCount columnCount) columnCount)).2.1.length
      + (repairLoop cost
        (emptyColumnsOf (initialGuess cost rowCount columnCount) columnCount).length
        (initialGuess cost rowCount columnCount)
        (emptyColumnsOf (initialGuess cost rowCount columnCount) columnCount)).2.2
      = (emptyColumnsOf (initialGuess cost rowCount columnCount) columnCount).length ∧
    (repairLoop cost
        (emptyColumnsOf (initialGuess cost rowCount columnCount) columnCount).length
        (initialGuess cost rowCount columnCount)
        (emptyColumnsOf (initialGuess cost rowCount columnCount) columnCount)).2.2
      ≤ rowCount := by
  set guess := initialGuess cost rowCount columnCount with hguess
  set empties := emptyColumnsOf guess columnCount with hempties
  have hg_len : guess.length = rowCount := initialGuess_length cost rowCount columnCount
  have hg_lt : ∀ v ∈ guess, v < columnCount := by
    rcases Nat.eq_zero_or_pos columnCount with h0 | hpos
    · subst h0
      have hr0 : rowCount = 0 := Nat.le_zero.mp hrc
      subst hr0
      intro v hv
      simp [hguess, initialGuess] at hv
    · exact initialGuess_mem_lt cost hpos
  have hE_nodup : empties.Nodup := emptyColumnsOf_nodup guess columnCount
  have hE_lt : ∀ c ∈ empties, c < columnCount := fun c hc => (mem_emptyColumnsOf.mp hc).1
  have hE_notin : ∀ c ∈ empties, c ∉ guess := fun c hc => (mem_emptyColumnsOf.mp hc).2
  have hcard : columnCount ≤ empties.length + guess.toFinset.card :=
    emptyColumnsOf_length_add_card guess columnCount
  obtain ⟨r1, r2, r3, r4, r5⟩ :=
    repairLoop_spec cost columnCount empties.length guess empties (le_refl _)
      hg_lt hE_nodup hE_lt hE_notin hcard (hg_len ▸ hrc)
  refine ⟨by rw [r1, hg_len], r2, r3, r4, ?_⟩
  have hcardF : (repairLoop cost empties.length guess empties).1.toFinset.card
      ≤ (repairLoop cost empties.length guess empties).1.length :=
    (repairLoop cost empties.length guess empties).1.toFinset_card_le
  omega

theorem repairPhase_spec (cost : Nat → Nat → K) (rowCount columnCount : Nat)
    (hrc : rowCount ≤ columnCount) :
    (repairPhase cost rowCount columnCount).1.length = rowCount ∧
    (∀ v ∈ (repairPhase cost rowCount columnCount).1, v < columnCount) ∧
    (repairPhase cost rowCount columnCount).1.Nodup ∧
    (repairPhase cost rowCount columnCount).2.1.length
      + (repairPhase cost rowCount columnCount).2.2
      = (emptyColumnsOf (initialGuess cost rowCount columnCount) columnCount).length ∧
    (repairPhase cost rowCount columnCount).2.2 ≤ rowCount :=
  repairLoop_entry_spec cost rowCount columnCount hrc

theorem arrangePlugs_eq_swapPass_repairPhase (cost : Nat → Nat → K)
    (rowCount columnCount : Nat) :
    arrangePlugs cost rowCount columnCount
      = swapPass cost rowCount (repairPhase cost rowCount columnCount).1 := rfl

/-! ## Claim theorems: the assigner -/

/-- C1: Bijection property of the assigner — for every cost table with
`rowCount ≤ columnCount` and all costs non-negative, `arrangePlugs`
returns an array of length `rowCount` whose values all lie in
`[0, columnCount)` and are pairwise distinct. -/
theorem arrangePlugs_bijection (cost : Nat → Nat → K) (rowCount columnCount : Nat)
    (hrc : rowCount ≤ columnCount) (_hnn : ∀ r c, 0 ≤ cost r c) :
    (arrangePlugs cost rowCount columnCount).length = rowCount ∧
    (∀ v ∈ arrangePlugs cost rowCount columnCount, v < columnCount) ∧
    (arrangePlugs cost rowCount columnCount).Nodup := by
  obtain ⟨r1, r2, r3, -, -⟩ := repairPhase_spec cost rowCount columnCount hrc
  have hperm : List.Perm (arrangePlugs cost rowCount columnCount)
      (repairPhase cost rowCount columnCount).1 := by
    rw [arrangePlugs_eq_swapPass_repairPhase]
    nth_rewrite 1 [← r1]
    exact swapPass_perm cost _
  exact ⟨hperm.length_eq.trans r1, fun v hv => r2 v (hperm.mem_iff.mp hv),
    hperm.nodup_iff.mpr r3⟩

/-- Witness for C1 at a concrete table. -/
theorem arrangePlugs_bijection_witness :
    (arrangePlugs (fun _ _ => (0 : ℤ)) 2 3).length = 2 ∧
    (∀ v ∈ arrangePlugs (fun _ _ => (0 : ℤ)) 2 3, v < 3) ∧
    (arrangePlugs (fun _ _ => (0 : ℤ)) 2 3).Nodup :=
  arrangePlugs_bijection (fun _ _ => (0 : ℤ)) 2 3 (by decide)
    (fun _ _ => le_refl (0 : ℤ))

/-- C2: Termination of the conflict-repair loop — for every cost table
with `rowCount ≤ columnCount` the loop runs to completion: it ends with no
row in conflict, each iteration consumes exactly one empty column (the
leftover empty columns plus the iteration count equal the initial empty
columns), and it executes at most `rowCount` iterations. -/
theorem repairLoop_terminates (cost : Nat → Nat → K) (rowCount columnCount : Nat)
    (hrc : rowCount ≤ columnCount) :
    getProblemRows (repairPhase cost rowCount columnCount).1 = [] ∧
    (repairPhase cost rowCount columnCount).2.1.length
      + (repairPhase cost rowCount columnCount).2.2
      = (emptyColumnsOf (initialGuess cost rowCount columnCount) columnCount).length ∧
    (repairPhase cost rowCount columnCount).2.2 ≤ rowCount := by
  obtain ⟨-, -, r3, r4, r5⟩ := repairPhase_spec cost rowCount columnCount hrc
  exact ⟨(getProblemRows_eq_nil_iff _).mpr r3, r4, r5⟩

/-- Witness for C2 at a concrete table. -/
theorem repairLoop_terminates_witness :
    getProblemRows (repairPhase (fun _ _ => (0 : ℤ)) 2 2).1 = [] ∧
    (repairPhase (fun _ _ => (0 : ℤ)) 2 2).2.1.length
      + (repairPhase (fun _ _ => (0 : ℤ)) 2 2).2.2
      = (emptyColumnsOf (initialGuess (fun _ _ => (0 : ℤ)) 2 2) 2).length ∧
    (repairPhase (fun _ _ => (0 : ℤ)) 2 2).2.2 ≤ 2 :=
  repairLoop_terminates (fun _ _ => (0 : ℤ)) 2 2 (by decide)

/-- C3: Monotonic improvement of the swap pass — the single swap pass
never increases the total assigned cost; each executed swap strictly
decreases the sum of the two affected rows' costs and leaves every other
row's assigned column (hence its cost) unchanged. -/
theorem swapPass_monotone (cost : Nat → Nat → K) (g : List Nat) :
    totalCost cost (swapPass cost g.length g) ≤ totalCost cost g ∧
    (∀ l r : Nat, l < r → r < g.length →
      (cost l (g.getD r 0) + cost r (g.getD l 0)
          < cost l (g.getD l 0) + cost r (g.getD r 0) →
        cost l ((swapStep cost g l r).getD l 0)
            + cost r ((swapStep cost g l r).getD r 0)
          < cost l (g.getD l 0) + cost r (g.getD r 0)) ∧
      (∀ i : Nat, i ≠ l → i ≠ r →
        (swapStep cost g l r).getD i 0 = g.getD i 0)) := by
  refine ⟨swapPass_totalCost_le cost g, ?_⟩
  intro l r hlr hr
  constructor
  · intro hcond
    have hl : l < g.length := lt_trans hlr hr
    obtain ⟨h1, h2⟩ :=
      swapStep_getD_swapped cost g l r (Nat.ne_of_lt hlr) hl hr hcond
    rw [h1, h2]
    rw [add_comm (cost l (g.getD r 0)) (cost r (g.getD l 0))] at hcond
    rwa [add_comm (cost l (g.getD r 0)) (cost r (g.getD l 0))]
  · intro i hil hir
    exact swapStep_getD_ne cost g l r i hil hir

/-- Witness for C3 at a concrete table and assignment. -/
theorem swapPass_monotone_witness :
    totalCost (fun r c => if r = c then (1 : ℤ) else 9)
        (swapPass (fun r c => if r = c then (1 : ℤ) else 9) 2 [1, 0])
      ≤ totalCost (fun r c => if r = c then (1 : ℤ) else 9) [1, 0] ∧
    (fun r c => if r = c then (1 : ℤ) else 9) 0
        ((swapStep (fun r c => if r = c then (1 : ℤ) else 9) [1, 0] 0 1).getD 0 0)
      + (fun r c => if r = c then (1 : ℤ) else 9) 1
        ((swapStep (fun r c => if r = c then (1 : ℤ) else 9) [1, 0] 0 1).getD 1 0)
      < (fun r c => if r = c then (1 : ℤ) else 9) 0 ([1, 0].getD 0 0)
        + (fun r c => if r = c then (1 : ℤ) else 9) 1 ([1, 0].getD 1 0) :=
  ⟨(swapPass_monotone (fun r c => if r = c then (1 : ℤ) else 9) [1, 0]).1,
    ((swapPass_monotone (fun r c => if r = c then (1 : ℤ) else 9) [1, 0]).2
      0 1 (by decide) (by decide)).1 (by decide)⟩

/-- C4: No-conflict initial guess — when the per-row argmin columns are
pairwise distinct, no repair iteration is triggered, the swap pass
performs no swap, and `arrangePlugs` returns exactly the per-row argmin
columns. -/
theorem arrangePlugs_noConflictGuess (cost : Nat → Nat → K)
    (rowCount columnCount : Nat)
    (hdistinct : (initialGuess cost rowCount columnCount).Nodup) :
    getProblemRows (initialGuess cost rowCount columnCount) = [] ∧
    (repairPhase cost rowCount columnCount).2.2 = 0 ∧
    swapPass cost rowCount (initialGuess cost rowCount columnCount)
      = initialGuess cost rowCount columnCount ∧
    arrangePlugs cost rowCount columnCount
      = initialGuess cost rowCount columnCount := by
  have hP : getProblemRows (initialGuess cost rowCount columnCount) = [] :=
    (getProblemRows_eq_nil_iff _).mpr hdistinct
  have hrepair : repairPhase cost rowCount columnCount
      = (initialGuess cost rowCount columnCount,
          emptyColumnsOf (initialGuess cost rowCount columnCount) columnCount, 0) :=
    repairLoop_of_no_problems cost _ _ _ hP
  have hswap : swapPass cost rowCount (initialGuess cost rowCount columnCount)
      = initialGuess cost rowCount columnCount := by
    refine foldl_swapStep_id cost _ (pairsUpper rowCount) ?_
    intro p hp
    obtain ⟨hp12, hp2⟩ := mem_pairsUpper.mp hp
    have hlen : (initialGuess cost rowCount columnCount).length = rowCount :=
      initialGuess_length cost rowCount columnCount
    have hp1 : p.1 < rowCount := lt_trans hp12 hp2
    have hg1 : (initialGuess cost rowCount columnCount).getD p.1 0
        = argminCol (fun col => cost p.1 col) columnCount :=
      initialGuess_getD cost rowCount columnCount p.1 hp1
    have hg2 : (initialGuess cost rowCount columnCount).getD p.2 0
        = argminCol (fun col => cost p.2 col) columnCount :=
      initialGuess_getD cost rowCount columnCount p.2 hp2
    rcases Nat.eq_zero_or_pos columnCount with h0 | hpos
    · -- with no columns every row picks column 0, contradicting distinctness
      exfalso
      have e1 : (initialGuess cost rowCount columnCount).getD p.1 0 = 0 := by
        rw [hg1, h0]
        rfl
      have e2 : (initialGuess cost rowCount columnCount).getD p.2 0 = 0 := by
        rw [hg2, h0]
        rfl
      have hl1 : p.1 < (initialGuess cost rowCount columnCount).length := by omega
      have hl2 : p.2 < (initialGuess cost rowCount columnCount).length := by omega
      have hee : (initialGuess cost rowCount columnCount)[p.1]
          = (initialGuess cost rowCount columnCount)[p.2] := by
        rw [← List.getD_eq_getElem _ 0 hl1, ← List.getD_eq_getElem _ 0 hl2, e1, e2]
      exact absurd ((List.Nodup.getElem_inj_iff hdistinct).mp hee) (Nat.ne_of_lt hp12)
    · -- every row already sits at its row minimum, so no swap can help
      unfold swapStep
      rw [if_neg]
      rw [hg1, hg2, not_lt]
      have hb1 : argminCol (fun col => cost p.1 col) columnCount < columnCount :=
        argminCol_lt _ hpos
      have hb2 : argminCol (fun col => cost p.2 col) columnCount < columnCount :=
        argminCol_lt _ hpos
      exact add_le_add (argminCol_min (fun col => cost p.1 col) hb2)
        (argminCol_min (fun col => cost p.2 col) hb1)
  refine ⟨hP, by rw [hrepair], hswap, ?_⟩
  rw [arrangePlugs_eq_swapPass_repairPhase, hrepair]
  exact hswap

/-- Witness for C4: the spec's example table `[[1,9],[9,1]]` yields
`[0,1]`. -/
theorem arrangePlugs_noConflictGuess_witness :
    arrangePlugs (fun r c => if r = c then (1 : ℤ) else 9) 2 2 = [0, 1] :=
  (arrangePlugs_noConflictGuess (fun r c => if r = c then (1 : ℤ) else 9) 2 2
    (by decide)).2.2.2.trans (by decide)

/-- C9: Deterministic lowest-index tie-breaking — because every comparison
of the scans is a strict `<`, the initial guess picks, in each row, the
lowest-indexed column achieving the row minimum (every earlier column
costs strictly more), and the repair selection returns the first pair in
scan order (problem rows outer, empty columns inner) achieving the
globally smallest delta (every scan-earlier pair costs strictly more);
both scans, and hence `arrangePlugs`, are functions of the cost table
alone, deterministic even under cost ties. -/
theorem arrangePlugs_deterministic_tiebreak :
    (∀ (f : Nat → K) (n j : Nat), j < n →
      f (argminCol f n) ≤ f j ∧ (j < argminCol f n → f (argminCol f n) < f j)) ∧
    (∀ (d : Nat → Nat → K) (nR nC : Nat) (m : K) (r c : Nat),
      selectBest d nR nC = some (m, (r, c)) →
      m = d r c ∧ r < nR ∧ c < nC ∧
      (∀ q1 q2 : Nat, q1 < nR → q2 < nC → m ≤ d q1 q2) ∧
      (∀ q1 q2 : Nat, q1 < nR → q2 < nC → lexLt (q1, q2) (r, c) → m < d q1 q2)) := by
  constructor
  · intro f n j hj
    exact ⟨argminCol_min f hj, fun hlt => argminCol_first f hlt hj⟩
  · intro d nR nC m r c hsel
    have hne : pairList nR nC ≠ [] := by
      intro hnil
      have : selectBest d nR nC = none := by
        rw [selectBest, hnil]
        rfl
      rw [hsel] at this
      exact Option.noConfusion this
    obtain ⟨m', a', l₁, l₂, heq, hm', hcut, hmin, hstrict⟩ :=
      firstMinBy_spec (fun p => d p.1 p.2) (pairList nR nC) hne
    rw [selectBest] at hsel
    rw [hsel] at heq
    obtain ⟨hm2, ha2⟩ : m = m' ∧ (r, c) = a' := by
      have h2 := Option.some.inj heq
      exact ⟨congrArg Prod.fst h2, congrArg Prod.snd h2⟩
    subst hm2
    have ha : (r, c) ∈ pairList nR nC := by
      rw [hcut, ← ha2]
      exact List.mem_append_right l₁ (List.mem_cons_self _ l₂)
    obtain ⟨hr, hc⟩ := mem_pairList.mp ha
    have hpw := pairList_pairwise nR nC
    rw [hcut] at hpw
    have hafter : ∀ q ∈ l₂, lexLt a' q :=
      fun q hq => (List.pairwise_cons.mp (List.pairwise_append.mp hpw).2.1).1 q hq
    refine ⟨by rw [hm', ← ha2], hr, hc, ?_, ?_⟩
    · intro q1 q2 h1 h2
      exact hmin (q1, q2) (mem_pairList.mpr ⟨h1, h2⟩)
    · intro q1 q2 h1 h2 hlex
      have hqmem : (q1, q2) ∈ pairList nR nC := mem_pairList.mpr ⟨h1, h2⟩
      rw [hcut] at hqmem
      rcases List.mem_append.mp hqmem with hq | hq
      · exact hstrict (q1, q2) hq
      · exfalso
        rcases List.mem_cons.mp hq with hq | hq
        · rw [← ha2] at hq
          have : lexLt (q1, q2) (q1, q2) := hq ▸ hlex
          rcases this with h | ⟨-, h⟩
          · exact lt_irrefl _ h
          · exact lt_irrefl _ h
        · have hba : lexLt a' (q1, q2) := hafter _ hq
          rw [← ha2] at hba
          have hx : q1 < r ∨ (q1 = r ∧ q2 < c) := hlex
          have hy : r < q1 ∨ (r = q1 ∧ c < q2) := hba
          rcases hx with h | ⟨h1, h2⟩ <;> rcases hy with h3 | ⟨h4, h5⟩ <;> omega

/-- Witness for C9 at concrete scans with ties. -/
theorem arrangePlugs_deterministic_tiebreak_witness :
    ((fun _ : Nat => (0 : ℤ)) (argminCol (fun _ : Nat => (0 : ℤ)) 2)
        ≤ (fun _ : Nat => (0 : ℤ)) 1 ∧
      (1 < argminCol (fun _ : Nat => (0 : ℤ)) 2 →
        (fun _ : Nat => (0 : ℤ)) (argminCol (fun _ : Nat => (0 : ℤ)) 2)
          < (fun _ : Nat => (0 : ℤ)) 1)) ∧
    ((0 : ℤ) = (fun _ _ : Nat => (0 : ℤ)) 0 0 ∧ 0 < 2 ∧ 0 < 2 ∧
      (∀ q1 q2 : Nat, q1 < 2 → q2 < 2 → (0 : ℤ) ≤ (fun _ _ : Nat => (0 : ℤ)) q1 q2) ∧
      (∀ q1 q2 : Nat, q1 < 2 → q2 < 2 → lexLt (q1, q2) (0, 0) →
        (0 : ℤ) < (fun _ _ : Nat => (0 : ℤ)) q1 q2)) :=
  ⟨arrangePlugs_deterministic_tiebreak.1 (fun _ => (0 : ℤ)) 2 1 (by decide),
    arrangePlugs_deterministic_tiebreak.2 (fun _ _ => (0 : ℤ)) 2 2 0 0 0 (by decide)⟩

/-! ## Claim theorems: result application -/

/-- C5: Port-to-zone permutation invariant of result application — for a
node with `N ≥ 1` ports and pairwise-distinct assigned zones, the merge
loop started from the trivial path `[0, …, N-1]` keeps the port-to-zone
map duplicate-free (and of length `N`, so every port occupies exactly one
zone and no two ports occupy the same zone) after every intermediate step
`k` and at the end. -/
theorem mergeLoop_nodup_invariant (N : Nat) (pairs : List (Nat × Nat))
    (_hN : 1 ≤ N)
    (hplug : ∀ pr ∈ pairs, pr.1 < N)
    (_hzones : (pairs.map Prod.snd).Nodup) :
    ∀ k : Nat, (mergeLoop (pairs.take k) (List.range N)).Nodup ∧
      (mergeLoop (pairs.take k) (List.range N)).length = N := by
  intro k
  have hb : ∀ pr ∈ pairs.take k, pr.1 < (List.range N).length := by
    intro pr hpr
    rw [List.length_range]
    exact hplug pr ((List.take_sublist k pairs).mem hpr)
  obtain ⟨h1, h2⟩ :=
    mergeLoop_nodup_aux (pairs.take k) (List.range N) (List.nodup_range N) hb
  exact ⟨h1, h2.trans (List.length_range N)⟩

/-- Witness for C5 at a concrete merge (one connected plug moved to the
extra zone of an odd node). -/
theorem mergeLoop_nodup_invariant_witness :
    (mergeLoop ([((0 : Nat), (1 : Nat))].take 1) (List.range 2)).Nodup ∧
      (mergeLoop ([((0 : Nat), (1 : Nat))].take 1) (List.range 2)).length = 2 :=
  mergeLoop_nodup_invariant 2 [(0, 1)] (by decide) (by decide) (by decide) 1

/-! ## Claim theorems: angular distance -/

open Real

/-- C7 counterexample: for the real angles 0 and 7 the difference exceeds
`2π`, and `angularDistance` returns the negative value `2π - 7`, so the
result does not lie in `[0, π]` for all real inputs as claimed. -/
theorem angularDistance_range_counterexample : angularDistance 0 7 < 0 := by
  have hpi : π < 3.15 := Real.pi_lt_d2
  have h7 : |(0 : ℝ) - 7| = 7 := by norm_num
  rw [angularDistance, h7, if_pos (by linarith)]
  linarith

/-- C7 amended: `angularDistance` unconditionally computes `|a-b|` when
`|a-b| ≤ π` and `2π - |a-b|` otherwise; *provided the inputs are at most
`2π` apart* (true of all angles the node code produces, which lie in
`(-π, π]`), the result lies in `[0, π]`; `angularDistance x x = 0`,
`angularDistance 0 π = π` and `angularDistance 0.1 (2π - 0.1) = 0.2`. -/
theorem angularDistance_spec :
    (∀ a b : ℝ, angularDistance a b
      = if |a - b| ≤ π then |a - b| else 2 * π - |a - b|) ∧
    (∀ a b : ℝ, |a - b| ≤ 2 * π →
      0 ≤ angularDistance a b ∧ angularDistance a b ≤ π) ∧
    (∀ x : ℝ, angularDistance x x = 0) ∧
    angularDistance 0 π = π ∧
    angularDistance 0.1 (2 * π - 0.1) = 0.2 := by
  have hpi : 0 < π := Real.pi_pos
  have hpi3 : 3 < π := Real.pi_gt_three
  refine ⟨?_, ?_, ?_, ?_, ?_⟩
  · intro a b
    rcases le_or_lt |a - b| π with h | h
    · rw [angularDistance, if_neg (not_lt.mpr h), if_pos h]
    · rw [angularDistance, if_pos h, if_neg (not_le.mpr h)]
  · intro a b hab
    rcases le_or_lt |a - b| π with h | h
    · rw [angularDistance, if_neg (not_lt.mpr h)]
      exact ⟨abs_nonneg _, h⟩
    · rw [angularDistance, if_pos h]
      constructor <;> linarith
  · intro x
    rw [angularDistance]
    simp [hpi.le, abs_nonneg]
  · rw [angularDistance]
    have h : |(0 : ℝ) - π| = π := by
      rw [zero_sub, abs_neg, abs_of_pos hpi]
    rw [h, if_neg (lt_irrefl π)]
  · rw [angularDistance]
    have h : |(0.1 : ℝ) - (2 * π - 0.1)| = 2 * π - 0.2 := by
      rw [abs_of_nonpos (by linarith)]
      ring
    rw [h, if_pos (by linarith)]
    ring

/-- Witness for C7's conditional range clause at the concrete inputs
`(0, π)`. -/
theorem angularDistance_spec_witness :
    0 ≤ angularDistance 0 π ∧ angularDistance 0 π ≤ π :=
  angularDistance_spec.2.1 0 π (by
    rw [zero_sub, abs_neg, abs_of_pos Real.pi_pos]
    linarith [Real.pi_pos])

/-! ## Claim theorems: zone layout and the dead zone -/

/-- Every center emitted by the layout loop lies between the first center
and the first center plus `(n-1)` steps. -/
theorem loopAngles_mem_bounds (step : ℝ) (hstep : 0 ≤ step) :
    ∀ (n : Nat) (a c : ℝ), c ∈ loopAngles step a n →
      a ≤ c ∧ c ≤ a + ((n : ℝ) - 1) * step := by
  intro n
  induction n with
  | zero => intro a c hc; simp [loopAngles] at hc
  | succ n ih =>
    intro a c hc
    rw [loopAngles] at hc
    have hcast : ((n : ℝ) + 1 - 1) = (n : ℝ) := by ring
    rcases List.mem_cons.mp hc with rfl | hc
    · refine ⟨le_refl c, ?_⟩
      push_cast
      nlinarith [mul_nonneg (Nat.cast_nonneg n : (0 : ℝ) ≤ n) hstep]
    · obtain ⟨h1, h2⟩ := ih (a + step) c hc
      refine ⟨by linarith, ?_⟩
      push_cast
      nlinarith [h2]

/-- The re-layout loop only writes the advancing angle; if the collapsed
index lies outside the visited range every visited slot is written, with
offsets `0, …, n-1` steps. -/
theorem relayoutLoop_pred_out (P : ℝ → Prop) (emptyIdx : Nat) (step : ℝ) :
    ∀ (n : Nat) (zs : List ℝ) (index : Nat) (current : ℝ),
      (∀ v ∈ zs, P v) →
      (∀ k : Nat, k < n → P (current + (k : ℝ) * step)) →
      (emptyIdx < index ∨ index + n ≤ emptyIdx) →
      ∀ v ∈ relayoutLoop emptyIdx step zs index current n, P v := by
  intro n
  induction n with
  | zero => intro zs index current hzs _ _ v hv; exact hzs v hv
  | succ n ih =>
    intro zs index current hzs hw hrange
    have hne : index ≠ emptyIdx := by omega
    rw [relayoutLoop, if_neg hne]
    refine ih (zs.set index current) (index + 1) (current + step) ?_ ?_ (by omega)
    · intro v hv
      rcases List.mem_or_eq_of_mem_set hv with h | h
      · exact hzs v h
      · subst h
        have := hw 0 (Nat.succ_pos n)
        simpa using this
    · intro k hk
      have := hw (k + 1) (by omega)
      push_cast at this ⊢
      have harith : current + step + (k : ℝ) * step = current + ((k : ℝ) + 1) * step := by
        ring
      rw [harith]
      exact this

/-- The re-layout loop when the collapsed index lies inside the visited
range: the collapsed slot is skipped, so only `n - 1` centers (offsets up
to `n-2` steps) are written. -/
theorem relayoutLoop_pred_in (P : ℝ → Prop) (emptyIdx : Nat) (step : ℝ) :
    ∀ (n : Nat) (zs : List ℝ) (index : Nat) (current : ℝ),
      (∀ v ∈ zs, P v) →
      (∀ k : Nat, k + 1 < n → P (current + (k : ℝ) * step)) →
      index ≤ emptyIdx → emptyIdx < index + n →
      ∀ v ∈ relayoutLoop emptyIdx step zs index current n, P v := by
  intro n
  induction n with
  | zero => intro zs index current hzs _ h1 h2; omega
  | succ n ih =>
    intro zs index current hzs hw h1 h2
    by_cases heq : index = emptyIdx
    · rw [relayoutLoop, if_pos heq]
      refine relayoutLoop_pred_out P emptyIdx step n zs (index + 1) current hzs ?_ (by omega)
      intro k hk
      exact hw k (by omega)
    · rw [relayoutLoop, if_neg heq]
      have hn1 : 1 ≤ n := by omega
      refine ih (zs.set index current) (index + 1) (current + step) ?_ ?_ (by omega) (by omega)
      · intro v hv
        rcases List.mem_or_eq_of_mem_set hv with h | h
        · exact hzs v h
        · subst h
          have := hw 0 (by omega)
          simpa using this
      · intro k hk
        have := hw (k + 1) (by omega)
        push_cast at this ⊢
        have harith : current + step + (k : ℝ) * step = current + ((k : ℝ) + 1) * step := by
          ring
        rw [harith]
        exact this

theorem zoneSpan_mul (H : Nat) (hH : 0 < H) (D G : ℝ) :
    (H : ℝ) * zoneSpan H D G = π - 2 * D - ((H : ℝ) + 1) * G := by
  rw [zoneSpan]
  field_simp

/-- Initial zone centers lie in `(D, π-D)` (upper half) or `(-π+D, -D)`
(lower half) whenever the dead zone is positive, the gap non-negative and
the zone span positive. -/
theorem zoneDirections_interval (N : Nat) (D G : ℝ) (hN : 1 ≤ N) (hD : 0 < D)
    (hG : 0 ≤ G) (hspan : 0 < zoneSpan ((N + N % 2) / 2) D G) :
    ∀ c ∈ zoneDirections N D G,
      (D < c ∧ c < π - D) ∨ (-π + D < c ∧ c < -D) := by
  intro c hc
  simp only [zoneDirections] at hc
  set H := (N + N % 2) / 2 with hHdef
  have hH : 1 ≤ H := by omega
  set span := zoneSpan H D G with hspandef
  have hmul : (H : ℝ) * span = π - 2 * D - ((H : ℝ) + 1) * G :=
    zoneSpan_mul H (by omega) D G
  have hstep : (0 : ℝ) ≤ G + span := by linarith
  have hexp : ((H : ℝ) - 1) * (G + span)
      = (H : ℝ) * G + (H : ℝ) * span - G - span := by ring
  have hexp2 : ((H : ℝ) + 1) * G = (H : ℝ) * G + G := by ring
  rcases List.mem_append.mp hc with h | h
  · obtain ⟨h1, h2⟩ := loopAngles_mem_bounds (G + span) hstep H _ c h
    left
    exact ⟨by linarith, by linarith⟩
  · obtain ⟨h1, h2⟩ := loopAngles_mem_bounds (G + span) hstep H _ c h
    right
    exact ⟨by linarith, by linarith⟩

/-- The re-layout loop with a single zone in the half (one port) skips its
only index and writes nothing. -/
theorem relayoutLoop_single_skip (e : Nat) (step : ℝ) (zs : List ℝ) (cur : ℝ) :
    relayoutLoop e step zs e cur 1 = zs := by
  rw [relayoutLoop, if_pos rfl]
  rfl

/-- Zone centers after the empty-zone collapse stay in `(D, π-D)` or
`(-π+D, -D)` under the same conditions. -/
theorem collapsedZoneDirections_interval (N : Nat) (D G : ℝ) (emptyIdx : Nat)
    (hN : 1 ≤ N) (hD : 0 < D) (hG : 0 ≤ G)
    (hspan : 0 < zoneSpan ((N + N % 2) / 2) D G)
    (hE : emptyIdx < N + N % 2) :
    ∀ c ∈ collapsedZoneDirections N D G emptyIdx,
      (D < c ∧ c < π - D) ∨ (-π + D < c ∧ c < -D) := by
  intro c hc
  simp only [collapsedZoneDirections] at hc
  set H := (N + N % 2) / 2 with hHdef
  have hH : 1 ≤ H := by omega
  have h2H : N + N % 2 = 2 * H := by omega
  have hinit := zoneDirections_interval N D G hN hD hG hspan
  rcases eq_or_lt_of_le hH with hH1 | hH2
  · -- `H = 1`: the visited half consists of the collapsed index alone
    have hstart : (if emptyIdx < H then 0 else H) = emptyIdx := by
      rcases Nat.lt_or_ge emptyIdx H with h | h
      · rw [if_pos h]
        omega
      · rw [if_neg (not_lt.mpr h)]
        omega
    rw [hstart, ← hH1] at hc
    rw [relayoutLoop_single_skip] at hc
    exact hinit c hc
  · -- `H ≥ 2`: the half is re-laid-out with the collapsed span
    set newSpan := (π - 2 * D - (H : ℝ) * G) / ((H : ℝ) - 1) with hnsdef
    have hHR : (1 : ℝ) < (H : ℝ) := by exact_mod_cast hH2
    have hmul : (H : ℝ) * zoneSpan H D G = π - 2 * D - ((H : ℝ) + 1) * G :=
      zoneSpan_mul H (by omega) D G
    have hexp2 : ((H : ℝ) + 1) * G = (H : ℝ) * G + G := by ring
    have hHspan_pos : (0 : ℝ) < (H : ℝ) * zoneSpan H D G :=
      mul_pos (by linarith) hspan
    have hnum : 0 < π - 2 * D - (H : ℝ) * G := by linarith
    have hns_pos : 0 < newSpan := div_pos hnum (by linarith)
    have hne1 : (H : ℝ) - 1 ≠ 0 := ne_of_gt (by linarith)
    have hnmul : ((H : ℝ) - 1) * newSpan = π - 2 * D - (H : ℝ) * G := by
      rw [hnsdef, mul_comm, div_mul_cancel₀ _ hne1]
    have hnexp : ((H : ℝ) - 2) * (G + newSpan)
        = (H : ℝ) * G + ((H : ℝ) - 1) * newSpan - 2 * G - newSpan := by ring
    rcases Nat.lt_or_ge emptyIdx H with hEH | hEH
    · rw [if_pos hEH, if_pos hEH] at hc
      refine relayoutLoop_pred_in
        (fun c => (D < c ∧ c < π - D) ∨ (-π + D < c ∧ c < -D)) emptyIdx
        (G + newSpan) H (zoneDirections N D G) 0 _ hinit ?_ (by omega) (by omega) c hc
      intro k hk
      have hkR : (k : ℝ) ≤ (H : ℝ) - 2 := by
        have hk2 : k + 2 ≤ H := by omega
        have hcast : ((k + 2 : Nat) : ℝ) ≤ ((H : Nat) : ℝ) := Nat.cast_le.mpr hk2
        push_cast at hcast
        linarith
      have hk0 : (0 : ℝ) ≤ (k : ℝ) := Nat.cast_nonneg k
      have hprod : (k : ℝ) * (G + newSpan) ≤ ((H : ℝ) - 2) * (G + newSpan) :=
        mul_le_mul_of_nonneg_right hkR (by linarith)
      have hknn : (0 : ℝ) ≤ (k : ℝ) * (G + newSpan) :=
        mul_nonneg hk0 (by linarith)
      left
      exact ⟨by linarith, by linarith⟩
    · rw [if_neg (not_lt.mpr hEH), if_neg (not_lt.mpr hEH)] at hc
      refine relayoutLoop_pred_in
        (fun c => (D < c ∧ c < π - D) ∨ (-π + D < c ∧ c < -D)) emptyIdx
        (G + newSpan) H (zoneDirections N D G) H _ hinit ?_ (by omega) (by omega) c hc
      intro k hk
      have hkR : (k : ℝ) ≤ (H : ℝ) - 2 := by
        have hk2 : k + 2 ≤ H := by omega
        have hcast : ((k + 2 : Nat) : ℝ) ≤ ((H : Nat) : ℝ) := Nat.cast_le.mpr hk2
        push_cast at hcast
        linarith
      have hk0 : (0 : ℝ) ≤ (k : ℝ) := Nat.cast_nonneg k
      have hprod : (k : ℝ) * (G + newSpan) ≤ ((H : ℝ) - 2) * (G + newSpan) :=
        mul_le_mul_of_nonneg_right hkR (by linarith)
      have hknn : (0 : ℝ) ≤ (k : ℝ) * (G + newSpan) :=
        mul_nonneg hk0 (by linarith)
      right
      exact ⟨by linarith, by linarith⟩

/-- A center in `(D, π-D)` or `(-π+D, -D)` is more than `D` away (in
angular distance) from both angle `0` and angle `π`. -/
theorem interval_excludes_deadzone (D : ℝ) (hD : 0 < D) (c : ℝ)
    (h : (D < c ∧ c < π - D) ∨ (-π + D < c ∧ c < -D)) :
    D < angularDistance c 0 ∧ D < angularDistance c π := by
  have hpi : 0 < π := Real.pi_pos
  rcases h with ⟨h1, h2⟩ | ⟨h1, h2⟩
  · have hc0 : 0 < c := lt_trans hD h1
    constructor
    · rw [angularDistance, sub_zero, abs_of_pos hc0,
        if_neg (not_lt.mpr (by linarith))]
      exact h1
    · have habs : |c - π| = π - c := by
        rw [abs_of_nonpos (by linarith)]
        ring
      rw [angularDistance, habs, if_neg (not_lt.mpr (by linarith))]
      linarith
  · have hc0 : c < 0 := by linarith
    constructor
    · have habs : |c - 0| = -c := by
        rw [sub_zero, abs_of_neg hc0]
      rw [angularDistance, habs, if_neg (not_lt.mpr (by linarith))]
      linarith
    · have habs : |c - π| = π - c := by
        rw [abs_of_nonpos (by linarith)]
        ring
      rw [angularDistance, habs, if_pos (by linarith)]
      linarith

/-- C6 counterexample: with `N = 2` ports, dead-zone half-angle `D = 2`
(`> 0`) and gap `G = 0`, the upper zone center is `π/2`, which lies within
`±D` of angle `0` — the claim fails without a positivity condition on the
zone span. -/
theorem zoneDirections_deadZone_counterexample :
    (0 : ℝ) < 2 ∧ π / 2 ∈ zoneDirections 2 (2 : ℝ) 0 ∧
      angularDistance (π / 2) 0 < 2 := by
  have hpi : 0 < π := Real.pi_pos
  have hpi4 : π < 3.15 := Real.pi_lt_d2
  refine ⟨by norm_num, ?_, ?_⟩
  · have h1 : zoneDirections 2 (2 : ℝ) 0
        = [2 + 0 + zoneSpan 1 2 0 / 2, -π + 2 + 0 + zoneSpan 1 2 0 / 2] := by
      norm_num [zoneDirections, loopAngles]
    have hv : (2 : ℝ) + 0 + zoneSpan 1 2 0 / 2 = π / 2 := by
      rw [zoneSpan]
      norm_num
      ring
    rw [h1, ← hv]
    exact List.mem_cons_self _ _
  · rw [angularDistance, sub_zero, abs_of_pos (by linarith),
      if_neg (not_lt.mpr (by linarith))]
    linarith

/-- C6 amended: for every port count `N ≥ 1`, dead-zone half-angle
`D > 0`, gap angle `G ≥ 0` *and positive zone span*, no zone center of the
initial layout or of the re-laid-out centers after collapsing an unused
zone falls within `±D` of angle `0` or of angle `π`. -/
theorem zoneDirections_deadZone_excluded (N : Nat) (D G : ℝ) (emptyIdx : Nat)
    (hN : 1 ≤ N) (hD : 0 < D) (hG : 0 ≤ G)
    (hspan : 0 < zoneSpan ((N + N % 2) / 2) D G)
    (hE : emptyIdx < N + N % 2) :
    (∀ c ∈ zoneDirections N D G,
      D < angularDistance c 0 ∧ D < angularDistance c π) ∧
    (∀ c ∈ collapsedZoneDirections N D G emptyIdx,
      D < angularDistance c 0 ∧ D < angularDistance c π) :=
  ⟨fun c hc => interval_excludes_deadzone D hD c
      (zoneDirections_interval N D G hN hD hG hspan c hc),
    fun c hc => interval_excludes_deadzone D hD c
      (collapsedZoneDirections_interval N D G emptyIdx hN hD hG hspan hE c hc)⟩

/-- Witness for C6 (amended) at `N = 2`, `D = 1`, `G = 0`. -/
theorem zoneDirections_deadZone_excluded_witness :
    (∀ c ∈ zoneDirections 2 (1 : ℝ) 0,
      (1 : ℝ) < angularDistance c 0 ∧ (1 : ℝ) < angularDistance c π) ∧
    (∀ c ∈ collapsedZoneDirections 2 (1 : ℝ) 0 0,
      (1 : ℝ) < angularDistance c 0 ∧ (1 : ℝ) < angularDistance c π) :=
  zoneDirections_deadZone_excluded 2 1 0 0 (by norm_num) (by norm_num)
    (le_refl 0)
    (by
      have h1 : ((2 + 2 % 2) / 2 : Nat) = 1 := by norm_num
      rw [h1, zoneSpan]
      have hpi : 3 < π := Real.pi_gt_three
      norm_num
      linarith)
    (by norm_num)

/-! ## Claim theorems: single-port collapse -/

/-- C10: Single-port collapse never observes its division by zero — for
`N = 1` (`evenZoneCount = 2`, `halfZoneCount = 1`) the collapse branch
computes its new span by dividing by `halfZoneCount - 1 = 0`, but the
re-layout loop's only index in the collapsed half *is* the collapsed
index, so it is skipped, no zone direction is written from that division,
and the zone directions (hence the port's final placement angle) are
exactly those of the initial layout. -/
theorem singlePort_collapse_preserves_directions (D G : ℝ) (emptyIdx : Nat)
    (hE : emptyIdx < 2) :
    collapsedZoneDirections 1 D G emptyIdx = zoneDirections 1 D G := by
  have h : emptyIdx = 0 ∨ emptyIdx = 1 := by omega
  rcases h with rfl | rfl
  · simp only [collapsedZoneDirections]
    norm_num
    exact relayoutLoop_single_skip 0 _ _ _
  · simp only [collapsedZoneDirections]
    norm_num
    exact relayoutLoop_single_skip 1 _ _ _

/-- Witness for C10 at a concrete dead zone and gap. -/
theorem singlePort_collapse_preserves_directions_witness :
    collapsedZoneDirections 1 (1 : ℝ) (1 : ℝ) 0 = zoneDirections 1 1 1 :=
  singlePort_collapse_preserves_directions 1 1 0 (by norm_num)
